/-
Verification of the flow-graph layer of the Dart VM optimizing compiler
(runtime/vm/compiler/backend/flow_graph.h).

The development shallowly embeds the data model and operations of the
header: pointer identities become natural numbers, machine integers
become Int, bit vectors become finite sets, RELEASE_ASSERT failures
become Option results. Functions whose bodies appear inline in the
header are translated directly from that code; functions that the
header only declares are modelled from the specification document, and
each such definition says so in its doc comment.
-/
import Mathlib

set_option maxHeartbeats 1000000

namespace Dart

/-! ## Objects, representations and the constant pool -/

/-- Value representation tag (Representation enum). Only identity of the
tag matters for the properties below, so it is modelled as a natural
number; kTagged is the default representation. -/
abbrev Representation := Nat

def kTagged : Representation := 0

/-- Identity hash used for the null object (kNullIdentityHash). The
concrete numeric value is immaterial to the properties proved here; what
matters is that it is one fixed sentinel. -/
def kNullIdentityHash : Nat := 2011

/-- A VM object as seen by the constant pool: a pointer identity, a
null/instance classification, the hash computed by the handle's
CanonicalizeHash override (which may not special-case null), and a class
id. A null hiding behind a wrapper handle is modelled by isNull = true
combined with an arbitrary canonicalizeHash. -/
structure Object where
  ptr : Nat
  isNull : Bool
  isInstance : Bool
  canonicalizeHash : Nat
  classId : Nat
deriving DecidableEq, Repr

/-- Word hash of a class id (Utils::WordHash); its internals are
irrelevant, only that it is a function of the class id. -/
def wordHash (cid : Nat) : Nat := cid * 2654435761 % 4294967296

/-- ConstantAndRepresentation::ComputeHash from flow_graph.h: null is
checked first and mapped to kNullIdentityHash; otherwise instances use
their canonical hash and non-instances hash their class id. -/
def ComputeHash (constant : Object) : Nat :=
  if constant.isNull then kNullIdentityHash
  else if constant.isInstance then constant.canonicalizeHash
  else wordHash constant.classId

/-- A ConstantAndRepresentation key: the constructor stores the constant,
the representation, and the hash computed from the constant alone. -/
structure ConstantAndRepresentation where
  constant : Object
  representation : Representation
  hash : Nat
deriving DecidableEq, Repr

/-- Constructor of ConstantAndRepresentation: hash_ is ComputeHash of the
constant. -/
def ConstantAndRepresentation.mk' (constant : Object)
    (rep : Representation) : ConstantAndRepresentation :=
  ⟨constant, rep, ComputeHash constant⟩

/-- A ConstantInstr entry of the constant pool: a fresh identity (the
allocation), the pointer identity of its value, and its representation. -/
structure ConstantInstr where
  id : Nat
  valuePtr : Nat
  representation : Representation
deriving DecidableEq, Repr

/-- ConstantPoolTrait::IsKeyEqual from flow_graph.h: a stored constant
matches a key when the value pointers are identical and the
representations are equal. -/
def IsKeyEqual (kv : ConstantInstr) (ptr : Nat) (rep : Representation) : Bool :=
  kv.valuePtr == ptr && kv.representation == rep

/-- State of the constant pool (constant_instr_pool_ plus the allocation
counter for fresh ConstantInstr nodes). -/
structure ConstantPool where
  entries : List ConstantInstr
  nextId : Nat
deriving DecidableEq, Repr

/-- FlowGraph::GetExistingConstant: returns the pooled definition for the
(value identity, representation) key if one exists. Lookup uses
IsKeyEqual from the source. -/
def GetExistingConstant (pool : ConstantPool) (ptr : Nat)
    (rep : Representation) : Option ConstantInstr :=
  pool.entries.find? (fun kv => IsKeyEqual kv ptr rep)

/-- Modelled from the spec: the body of FlowGraph::GetConstant is not in
the supplied sources (only declared); per the spec, get_or_create(value,
representation) returns the canonical Definition for that
(value-identity, representation) pair, creating and registering a fresh
one if absent. Key equality is IsKeyEqual from the source header. -/
def GetConstant (pool : ConstantPool) (ptr : Nat) (rep : Representation) :
    ConstantInstr × ConstantPool :=
  match GetExistingConstant pool ptr rep with
  | some c => (c, pool)
  | none =>
      let c : ConstantInstr := ⟨pool.nextId, ptr, rep⟩
      (c, ⟨c :: pool.entries, pool.nextId + 1⟩)

/-! ## Immortal variables -/

/-- A local variable as needed by EnvIndex: its frame index. The C++
EnvIndex asserts the variable is not captured; captured variables are
not modelled since the immortal variables never are. -/
structure LocalVariable where
  index : Int
deriving DecidableEq, Repr

/-- The per-function data that IsImmortalVariable consults: the number of
direct parameters, the current-context variable, and the optional
suspend-state variable (parsed_function().suspend_state_var() is null
for functions without one). -/
structure FunctionInfo where
  numDirectParameters : Int
  currentContextVar : LocalVariable
  suspendStateVar : Option LocalVariable
deriving DecidableEq, Repr

/-- FlowGraph::EnvIndex: num_direct_parameters_ - variable->index().value(). -/
def EnvIndex (fg : FunctionInfo) (v : LocalVariable) : Int :=
  fg.numDirectParameters - v.index

/-- FlowGraph::CurrentContextEnvIndex: EnvIndex of the current-context
variable. -/
def CurrentContextEnvIndex (fg : FunctionInfo) : Int :=
  EnvIndex fg fg.currentContextVar

/-- FlowGraph::IsImmortalVariable from flow_graph.h: the env index of the
current-context variable, or, when a suspend-state variable exists, the
env index of that variable. The C++ short-circuit of the null check on
SuspendStateVar() is modelled by matching the option first. -/
def IsImmortalVariable (fg : FunctionInfo) (envIndex : Int) : Bool :=
  (envIndex == CurrentContextEnvIndex fg) ||
    (match fg.suspendStateVar with
     | some v => envIndex == EnvIndex fg v
     | none => false)

/-! ## Maximum argument slot count -/

/-- Initial value of max_argument_slot_count_ (the field initializer
in flow_graph.h is -1, the unset sentinel). -/
def initialMaxArgumentSlotCount : Int := -1

/-- FlowGraph::max_argument_slot_count from flow_graph.h:
RELEASE_ASSERT(max_argument_slot_count_ >= 0) then return the field. A
RELEASE_ASSERT failure (which fires in all build modes) is modelled as
none. -/
def max_argument_slot_count (field : Int) : Option Int :=
  if 0 ≤ field then some field else none

/-- FlowGraph::set_max_argument_slot_count from flow_graph.h:
RELEASE_ASSERT(max_argument_slot_count_ == -1) then store the count. A
RELEASE_ASSERT failure is modelled as none; success returns the new
field value. -/
def set_max_argument_slot_count (field : Int) (count : Int) : Option Int :=
  if field = -1 then some count else none

/-! ## Inlining info -/

/-- InliningInfo from flow_graph.h: three parallel growable arrays.
Functions are identified by the identity of their Function pointer,
modelled as Nat; token positions are modelled as Int. -/
structure InliningInfo where
  inline_id_to_function : List Nat
  inline_id_to_token_pos : List Int
  caller_inline_id : List Int
deriving DecidableEq, Repr

/-- The InliningInfo constructor from flow_graph.h: adds the top-scope
function at inlining id 0, adds -1 as its caller id, and adds no token
position for it. -/
def InliningInfo.ofFunction (function : Nat) : InliningInfo :=
  { inline_id_to_function := [function]
    inline_id_to_token_pos := []
    caller_inline_id := [-1] }

/-! ## Redefinitions -/

/-- Flow-graph state visible to EnsureRedefinition: the redefinition
markers currently present, each recorded as (insertion point, original
definition, compile type) with all three identified by their pointer or
structural identity, plus an allocation counter for fresh
RedefinitionInstr nodes. The rewriting of dominated uses is not
observable for the idempotence property and is not modelled. -/
structure FlowGraphRedefs where
  redefs : List (Nat × Nat × Nat)
  nextId : Nat
deriving DecidableEq, Repr

/-- Modelled from the spec: the body of FlowGraph::EnsureRedefinition is
not in the supplied sources (only declared). Per the header comment and
the spec, it inserts a redefinition of original after prev and returns
it, unless an equivalent redefinition is already present at that point,
in which case nothing is inserted and nullptr (here none) is returned. -/
def EnsureRedefinition (g : FlowGraphRedefs) (prev original ctype : Nat) :
    Option Nat × FlowGraphRedefs :=
  if (prev, original, ctype) ∈ g.redefs then (none, g)
  else (some g.nextId, ⟨(prev, original, ctype) :: g.redefs, g.nextId + 1⟩)

/-! ## Definition worklist -/

/-- An SSA definition as seen by DefinitionWorklist: a node identity and
its ssa_temp_index (negative when the definition has not been given an
SSA name). -/
structure Definition where
  id : Nat
  ssaTempIndex : Int
deriving DecidableEq, Repr

/-- DefinitionWorklist from flow_graph.h: the list of queued definitions
(defs_) and the membership bit vector indexed by ssa_temp_index
(contains_vector_), modelled as a finite set of indices. -/
structure DefinitionWorklist where
  defs : List Definition
  contains_vector : Finset Int
deriving DecidableEq

/-- DefinitionWorklist's constructor: empty list, empty bit vector. -/
def DefinitionWorklist.empty : DefinitionWorklist := ⟨[], ∅⟩

/-- DefinitionWorklist::Contains: true iff the ssa_temp_index is
non-negative and its bit is set. -/
def DefinitionWorklist.Contains (w : DefinitionWorklist) (d : Definition) :
    Bool :=
  decide (0 ≤ d.ssaTempIndex) && decide (d.ssaTempIndex ∈ w.contains_vector)

/-- DefinitionWorklist::Add: if not contained, append the definition and
set its bit. (For a negative index the C++ BitVector::Add would index out
of bounds; inserting the negative key is a benign model of that, and the
claims below only concern non-negative indices.) -/
def DefinitionWorklist.Add (w : DefinitionWorklist) (d : Definition) :
    DefinitionWorklist :=
  if w.Contains d then w
  else ⟨w.defs ++ [d], insert d.ssaTempIndex w.contains_vector⟩

/-- DefinitionWorklist::RemoveLast: remove and return the last queued
definition and clear its bit; the C++ asserts non-emptiness, modelled by
returning none on the empty worklist. -/
def DefinitionWorklist.RemoveLast (w : DefinitionWorklist) :
    Option (Definition × DefinitionWorklist) :=
  match w.defs.getLast? with
  | none => none
  | some d => some (d, ⟨w.defs.dropLast, w.contains_vector.erase d.ssaTempIndex⟩)

/-- DefinitionWorklist::Clear: truncate the list and clear the bit
vector. -/
def DefinitionWorklist.Clear (_ : DefinitionWorklist) : DefinitionWorklist :=
  ⟨[], ∅⟩

/-- The worklist representation invariant: bits of queued definitions
with non-negative index are set; every set non-negative bit comes from a
queued definition; non-negative indices identify at most one queued
definition; and no definition with non-negative index is queued twice. -/
def WorklistInv (w : DefinitionWorklist) : Prop :=
  (∀ d ∈ w.defs, 0 ≤ d.ssaTempIndex → d.ssaTempIndex ∈ w.contains_vector) ∧
  (∀ i ∈ w.contains_vector, 0 ≤ i → ∃ d ∈ w.defs, d.ssaTempIndex = i) ∧
  (∀ d₁ ∈ w.defs, ∀ d₂ ∈ w.defs, 0 ≤ d₁.ssaTempIndex →
    d₁.ssaTempIndex = d₂.ssaTempIndex → d₁ = d₂) ∧
  (w.defs.filter (fun d => 0 ≤ d.ssaTempIndex)).Nodup

instance (w : DefinitionWorklist) : Decidable (WorklistInv w) := by
  unfold WorklistInv; infer_instance

/-! ## Liveness analysis -/

/-- Static inputs of a LivenessAnalysis instance: nb blocks identified
by their postorder number, the successor lists of the block graph, and
the kill and gen sets over a universe of nv variables (the concrete
subclass's ComputeInitialSets supplies kill and gen; per the spec,
live-in is computed as (live-out minus kill) union gen). -/
structure LivenessAnalysis (nb nv : Nat) where
  succ : Fin nb → List (Fin nb)
  kill : Fin nb → Finset (Fin nv)
  gen : Fin nb → Finset (Fin nv)

/-- Mutable state of the analysis: the live_in_ and live_out_ bit
vectors, one per block. -/
structure LiveSets (nb nv : Nat) where
  live_in : Fin nb → Finset (Fin nv)
  live_out : Fin nb → Finset (Fin nv)

instance (nb nv : Nat) : DecidableEq (LiveSets nb nv) := fun s t =>
  decidable_of_iff (s.live_in = t.live_in ∧ s.live_out = t.live_out)
    (by cases s; cases t; simp)

/-- Union of the live-in sets of a block's successors. -/
def unionLiveIn {nb nv : Nat} (L : LivenessAnalysis nb nv)
    (s : LiveSets nb nv) (b : Fin nb) : Finset (Fin nv) :=
  (L.succ b).foldl (fun acc j => acc ∪ s.live_in j) ∅

/-- Modelled from the spec: LivenessAnalysis::UpdateLiveOut is only
declared in the supplied sources. Per its header comment, live-out of
the block grows to contain all values live-in at the block's
successors (BitVector::AddAll accumulation — the set never shrinks);
the C++ returns whether the set changed, recoverable here as inequality
with the input state. -/
def UpdateLiveOut {nb nv : Nat} (L : LivenessAnalysis nb nv)
    (s : LiveSets nb nv) (b : Fin nb) : LiveSets nb nv :=
  { s with live_out :=
      Function.update s.live_out b (s.live_out b ∪ unionLiveIn L s b) }

/-- Modelled from the spec: LivenessAnalysis::UpdateLiveIn is only
declared in the supplied sources. Per its header comment and the spec,
live-in of the block grows to contain (live-out minus kill) union gen;
the C++ returns whether the set changed, recoverable here as inequality
with the input state. -/
def UpdateLiveIn {nb nv : Nat} (L : LivenessAnalysis nb nv)
    (s : LiveSets nb nv) (b : Fin nb) : LiveSets nb nv :=
  let newIn := s.live_in b ∪ ((s.live_out b \ L.kill b) ∪ L.gen b)
  { s with live_in := Function.update s.live_in b newIn }

/-- One per-block step of the driver: recompute live-out, then
live-in. -/
def updateBlock {nb nv : Nat} (L : LivenessAnalysis nb nv)
    (s : LiveSets nb nv) (b : Fin nb) : LiveSets nb nv :=
  UpdateLiveIn L (UpdateLiveOut L s b) b

/-- One full pass of the driver over every block. -/
def onePass {nb nv : Nat} (L : LivenessAnalysis nb nv)
    (s : LiveSets nb nv) : LiveSets nb nv :=
  (List.finRange nb).foldl (updateBlock L) s

/-- Modelled from the spec: LivenessAnalysis::ComputeLiveInAndLiveOutSets
is only declared in the supplied sources. Per the spec it repeats full
passes until no set changes in a pass; the loop is expressed with a fuel
parameter, and the termination theorem below shows the fuel used by
Analyze always suffices to reach the no-change fixed point. -/
def ComputeLiveInAndLiveOutSets {nb nv : Nat} (L : LivenessAnalysis nb nv) :
    Nat → LiveSets nb nv → LiveSets nb nv
  | 0, s => s
  | fuel + 1, s =>
      let s' := onePass L s
      if s' = s then s else ComputeLiveInAndLiveOutSets L fuel s'

/-- The all-empty initial live sets (the driver initializes all sets
empty). -/
def emptySets (nb nv : Nat) : LiveSets nb nv := ⟨fun _ => ∅, fun _ => ∅⟩

/-- LivenessAnalysis::Analyze: run the fixed-point driver from the
empty sets; 2·nb·nv + 1 passes always suffice (see the termination
theorem). -/
def Analyze {nb nv : Nat} (L : LivenessAnalysis nb nv) : LiveSets nb nv :=
  ComputeLiveInAndLiveOutSets L (2 * nb * nv + 1) (emptySets nb nv)

/-- Pointwise inclusion of live-set states: no set shrinks. -/
def SetsLE {nb nv : Nat} (s t : LiveSets nb nv) : Prop :=
  ∀ b, s.live_in b ⊆ t.live_in b ∧ s.live_out b ⊆ t.live_out b

/-- Total number of set elements across all blocks, the termination
measure: bounded by 2·nb·nv and strictly increased by any changing
pass. -/
def totalSize {nb nv : Nat} (s : LiveSets nb nv) : Nat :=
  ∑ b : Fin nb, ((s.live_in b).card + (s.live_out b).card)

/-- The dataflow invariant maintained by the driver from the empty
start: each live-out is at most the union of successor live-ins and
each live-in is at most (live-out minus kill) union gen, so a no-change
pass forces the exact equations. -/
def LiveInv {nb nv : Nat} (L : LivenessAnalysis nb nv)
    (s : LiveSets nb nv) : Prop :=
  ∀ b, s.live_out b ⊆ unionLiveIn L s b ∧
    s.live_in b ⊆ (s.live_out b \ L.kill b) ∪ L.gen b

/-! ## Natural loop detection -/

/-- A control-flow graph for loop detection: nb blocks identified by
their preorder numbers, each with its ordered predecessor list (the
worklist of FindLoopBlocks walks predecessor edges). -/
structure BlockGraph (nb : Nat) where
  pred : Fin nb → List (Fin nb)

/-- The worklist loop of FindLoopBlocks: pop a block p, add every
not-yet-member predecessor q of p to the loop set and push it. The
result is the loop set once the worklist empties. -/
def loopWork {nb : Nat} (g : BlockGraph nb) :
    List (Fin nb) → Finset (Fin nb) → Finset (Fin nb)
  | [], S => S
  | p :: stack, S =>
      loopWork g
        (((g.pred p).filter (fun q => decide (q ∉ S))).dedup ++ stack)
        (S ∪ (((g.pred p).filter (fun q => decide (q ∉ S))).dedup).toFinset)
termination_by stack S => 2 * (Finset.univ \ S).card + stack.length
decreasing_by
  simp_wf
  set T := ((g.pred p).filter (fun q => !decide (q ∈ S))).dedup with hT
  have hnodup : T.Nodup := List.nodup_dedup _
  have hsubset : T.toFinset ⊆ Finset.univ \ S := by
    intro q hq
    rw [hT, List.mem_toFinset, List.mem_dedup, List.mem_filter] at hq
    rw [Finset.mem_sdiff]
    exact ⟨Finset.mem_univ q, by simpa using hq.2⟩
  have hk : T.toFinset.card = T.length := List.toFinset_card_of_nodup hnodup
  have hsd : Finset.univ \ (S ∪ T.toFinset) =
      (Finset.univ \ S) \ T.toFinset := by
    have h := sdiff_sdiff_left (a := (Finset.univ : Finset (Fin nb)))
      (b := S) (c := T.toFinset)
    rw [Finset.sup_eq_union] at h
    exact h.symm
  have hcard : ((Finset.univ \ S) \ T.toFinset).card =
      (Finset.univ \ S).card - T.toFinset.card := Finset.card_sdiff hsubset
  have hle : T.toFinset.card ≤ (Finset.univ \ S).card :=
    Finset.card_le_card hsubset
  rw [hsd, hcard, hk]
  rw [hk] at hle
  omega

/-- Modelled from the spec: the body of FlowGraph::FindLoopBlocks is only
declared in the supplied sources; per the spec it performs a reverse
reachability search from m stopping at n (Muchnick's natural-loop
computation): the set starts as kept preorder numbers of n and m, m is
put on the worklist unless the edge is a self-loop, and unvisited
predecessors are accumulated until the worklist empties. -/
def FindLoopBlocks {nb : Nat} (g : BlockGraph nb) (m n : Fin nb) :
    Finset (Fin nb) :=
  if m = n then {n} else loopWork g [m] (insert n {m})

/-- Forward reachability avoiding a block: ReachesAvoiding g n b d holds
when some CFG path b → ... → d (an edge x → y exists when x is listed as
a predecessor of y) has every node on it, endpoints included, different
from n. -/
inductive ReachesAvoiding {nb : Nat} (g : BlockGraph nb) (n : Fin nb) :
    Fin nb → Fin nb → Prop
  | refl (b : Fin nb) : b ≠ n → ReachesAvoiding g n b b
  | step (b c d : Fin nb) : b ≠ n → b ∈ g.pred c →
      ReachesAvoiding g n c d → ReachesAvoiding g n b d

/-- Worklist invariant of loopWork for the back edge m → n: the set
holds n, m and every stacked block; stacked blocks reach m avoiding n;
every member is n or reaches m avoiding n; and every member other than
n is either still stacked or has all its predecessors in the set. -/
def LoopInv {nb : Nat} (g : BlockGraph nb) (m n : Fin nb)
    (stack : List (Fin nb)) (S : Finset (Fin nb)) : Prop :=
  n ∈ S ∧ m ∈ S ∧ (∀ p ∈ stack, p ∈ S) ∧
  (∀ p ∈ stack, ReachesAvoiding g n p m) ∧
  (∀ b ∈ S, b = n ∨ ReachesAvoiding g n b m) ∧
  (∀ p ∈ S, p = n ∨ p ∈ stack ∨ ∀ q ∈ g.pred p, q ∈ S)

/-! ## Theorems for claims C5, C6, C7, C10 -/

/-- C5: IsImmortalVariable(env_index) returns true exactly when env_index
is the env index of the current-context variable, or the function has a
suspend-state variable and env_index is that variable's env index; for
every other index it returns false. -/
theorem isImmortalVariable_iff (fg : FunctionInfo) (envIndex : Int) :
    IsImmortalVariable fg envIndex = true ↔
      envIndex = CurrentContextEnvIndex fg ∨
        ∃ v, fg.suspendStateVar = some v ∧ envIndex = EnvIndex fg v := by
  unfold IsImmortalVariable
  cases h : fg.suspendStateVar with
  | none =>
      simp [h]
  | some v =>
      simp [h]

/-- C6: the constant-pool hash maps every null constant value to the
fixed sentinel kNullIdentityHash, regardless of the wrapping handle
(its canonicalizeHash and classId are arbitrary); any two keys built
from null values have equal hash. -/
theorem computeHash_null (c₁ c₂ : Object) (r₁ r₂ : Representation)
    (h₁ : c₁.isNull = true) (h₂ : c₂.isNull = true) :
    (ConstantAndRepresentation.mk' c₁ r₁).hash = kNullIdentityHash ∧
      (ConstantAndRepresentation.mk' c₁ r₁).hash =
        (ConstantAndRepresentation.mk' c₂ r₂).hash := by
  simp [ConstantAndRepresentation.mk', ComputeHash, h₁, h₂]

/-- Witness for C6: two distinct null-wrapping handles (with different
canonicalizeHash overrides) both hash to the sentinel. -/
theorem computeHash_null_witness :
    (ConstantAndRepresentation.mk' ⟨0, true, true, 17, 5⟩ kTagged).hash =
        kNullIdentityHash ∧
      (ConstantAndRepresentation.mk' ⟨0, true, true, 17, 5⟩ kTagged).hash =
        (ConstantAndRepresentation.mk' ⟨0, true, false, 99, 7⟩ 3).hash :=
  computeHash_null ⟨0, true, true, 17, 5⟩ ⟨0, true, false, 99, 7⟩ kTagged 3
    rfl rfl

/-- C10: after the InliningInfo constructor runs for a top-scope
function, inline_id_to_function and caller_inline_id each have length
exactly one greater than inline_id_to_token_pos; the top-scope function
occupies inlining id 0 and its caller id is -1. -/
theorem inliningInfo_ctor (function : Nat) :
    (InliningInfo.ofFunction function).inline_id_to_function.length =
        (InliningInfo.ofFunction function).inline_id_to_token_pos.length + 1 ∧
      (InliningInfo.ofFunction function).caller_inline_id.length =
        (InliningInfo.ofFunction function).inline_id_to_token_pos.length + 1 ∧
      (InliningInfo.ofFunction function).inline_id_to_function[0]? =
        some function ∧
      (InliningInfo.ofFunction function).caller_inline_id[0]? = some (-1) := by
  simp [InliningInfo.ofFunction]

/-- Counterexample for C7: the claim asserts that when the setter is
called exactly once before any read, neither release assertion fires;
but calling set_max_argument_slot_count(-1) on the unset field succeeds
(count == -1 passes the setter's assertion and stores -1), after which
the very first read fails its assertion (field < 0). -/
theorem maxArgumentSlotCount_once_counterexample :
    set_max_argument_slot_count initialMaxArgumentSlotCount (-1) = some (-1) ∧
      max_argument_slot_count (-1) = none := by
  constructor <;> rfl

/-- C7 (amended): set_max_argument_slot_count fails its release
assertion unless the field is the unset sentinel -1;
max_argument_slot_count fails its release assertion unless the field is
non-negative; and when the setter is called exactly once with a
non-negative count before any read, neither assertion fires — moreover
any second set then fails its assertion. -/
theorem maxArgumentSlotCount_protocol (field count count' : Int) :
    (field ≠ -1 → set_max_argument_slot_count field count = none) ∧
      (¬ 0 ≤ field → max_argument_slot_count field = none) ∧
      (0 ≤ count →
        set_max_argument_slot_count initialMaxArgumentSlotCount count =
            some count ∧
          max_argument_slot_count count = some count ∧
          set_max_argument_slot_count count count' = none) := by
  refine ⟨fun h => ?_, fun h => ?_, fun h => ⟨?_, ?_, ?_⟩⟩
  · simp [set_max_argument_slot_count, h]
  · simp [max_argument_slot_count, h]
  · simp [set_max_argument_slot_count, initialMaxArgumentSlotCount]
  · simp [max_argument_slot_count, h]
  · have : count ≠ -1 := by omega
    simp [set_max_argument_slot_count, this]

/-- Witness for C7 (amended), at field = 5, count = 3, count' = 4 and a
failing read at field = -2. -/
theorem maxArgumentSlotCount_protocol_witness :
    set_max_argument_slot_count 5 3 = none ∧
      max_argument_slot_count (-2) = none ∧
      (set_max_argument_slot_count initialMaxArgumentSlotCount 3 = some 3 ∧
        max_argument_slot_count 3 = some 3 ∧
        set_max_argument_slot_count 3 4 = none) :=
  ⟨(maxArgumentSlotCount_protocol 5 3 4).1 (by decide),
    (maxArgumentSlotCount_protocol (-2) 3 4).2.1 (by decide),
    (maxArgumentSlotCount_protocol 5 3 4).2.2 (by decide)⟩

/-- Looking up the key just returned by GetConstant finds exactly that
definition again. -/
theorem getExistingConstant_after_getConstant (pool : ConstantPool)
    (ptr : Nat) (rep : Representation) :
    GetExistingConstant (GetConstant pool ptr rep).2 ptr rep =
      some (GetConstant pool ptr rep).1 := by
  unfold GetConstant
  cases h : GetExistingConstant pool ptr rep with
  | some c => simpa using h
  | none =>
      simp only
      unfold GetExistingConstant
      simp [List.find?_cons, IsKeyEqual]

/-- The definition returned by GetConstant carries the requested
representation. -/
theorem getConstant_representation (pool : ConstantPool) (ptr : Nat)
    (rep : Representation) :
    (GetConstant pool ptr rep).1.representation = rep := by
  unfold GetConstant
  cases h : GetExistingConstant pool ptr rep with
  | some c =>
      have := List.find?_some h
      simp only [IsKeyEqual, Bool.and_eq_true, beq_iff_eq] at this
      simpa using this.2
  | none => simp

/-- C1: calling GetConstant twice with pointer-identical value and equal
representation returns the identical canonical definition both times
(and leaves the pool unchanged the second time); calling it with the
same value but a different representation returns a distinct
definition. -/
theorem getConstant_canonical (pool : ConstantPool) (ptr : Nat)
    (rep rep' : Representation) :
    (GetConstant (GetConstant pool ptr rep).2 ptr rep).1 =
        (GetConstant pool ptr rep).1 ∧
      (GetConstant (GetConstant pool ptr rep).2 ptr rep).2 =
        (GetConstant pool ptr rep).2 ∧
      (rep ≠ rep' →
        (GetConstant (GetConstant pool ptr rep).2 ptr rep').1 ≠
          (GetConstant pool ptr rep).1) := by
  have h1 := getConstant_representation pool ptr rep
  have h2 := getConstant_representation (GetConstant pool ptr rep).2 ptr rep'
  set q := GetConstant pool ptr rep with hq
  have hfind : GetExistingConstant q.2 ptr rep = some q.1 :=
    getExistingConstant_after_getConstant pool ptr rep
  refine ⟨?_, ?_, fun hne hcontra => ?_⟩
  · unfold GetConstant; rw [hfind]
  · unfold GetConstant; rw [hfind]
  · rw [hcontra, h1] at h2
    exact hne h2

/-- Witness for C1 at an empty pool, value pointer 7, representations
kTagged and 1. -/
theorem getConstant_canonical_witness :
    (GetConstant (GetConstant ⟨[], 0⟩ 7 kTagged).2 7 kTagged).1 =
        (GetConstant ⟨[], 0⟩ 7 kTagged).1 ∧
      (GetConstant (GetConstant ⟨[], 0⟩ 7 kTagged).2 7 1).1 ≠
        (GetConstant ⟨[], 0⟩ 7 kTagged).1 :=
  ⟨(getConstant_canonical ⟨[], 0⟩ 7 kTagged 1).1,
    (getConstant_canonical ⟨[], 0⟩ 7 kTagged 1).2.2 (by decide)⟩

/-- C4: EnsureRedefinition is idempotent — if an equivalent redefinition
of original is already present at prev, the call inserts nothing and
returns nullptr; and a second call with the same arguments returns
nullptr and leaves the graph exactly as after the first call. -/
theorem ensureRedefinition_idempotent (g : FlowGraphRedefs)
    (prev original ctype : Nat) :
    ((prev, original, ctype) ∈ g.redefs →
        EnsureRedefinition g prev original ctype = (none, g)) ∧
      EnsureRedefinition (EnsureRedefinition g prev original ctype).2
          prev original ctype =
        (none, (EnsureRedefinition g prev original ctype).2) := by
  constructor
  · intro h
    simp [EnsureRedefinition, h]
  · by_cases h : (prev, original, ctype) ∈ g.redefs
    · simp [EnsureRedefinition, h]
    · simp [EnsureRedefinition, h]

/-- The empty worklist satisfies the representation invariant. -/
theorem wl_empty_inv : WorklistInv DefinitionWorklist.empty := by
  simp [WorklistInv, DefinitionWorklist.empty]

/-- Clear re-establishes the representation invariant. -/
theorem wl_clear_inv (w : DefinitionWorklist) : WorklistInv w.Clear := by
  simp [WorklistInv, DefinitionWorklist.Clear]

/-- Add preserves the worklist representation invariant. -/
theorem wl_add_preserves (w : DefinitionWorklist) (d : Definition)
    (h : WorklistInv w) : WorklistInv (w.Add d) := by
  obtain ⟨ha, hb, hc, hd⟩ := h
  unfold DefinitionWorklist.Add
  by_cases hcont : w.Contains d = true
  · rw [if_pos hcont]
    exact ⟨ha, hb, hc, hd⟩
  · have hnot : ¬(0 ≤ d.ssaTempIndex ∧ d.ssaTempIndex ∈ w.contains_vector) := by
      simpa [DefinitionWorklist.Contains] using hcont
    rw [if_neg hcont]
    refine ⟨?_, ?_, ?_, ?_⟩
    · intro e he hge
      rcases List.mem_append.mp he with he | he
      · exact Finset.mem_insert_of_mem (ha e he hge)
      · rw [List.mem_singleton.mp he]
        exact Finset.mem_insert_self _ _
    · intro i hi hge
      rcases Finset.mem_insert.mp hi with hi | hi
      · exact ⟨d, List.mem_append_right _ (List.mem_singleton.mpr rfl), hi.symm⟩
      · obtain ⟨e, he, heq⟩ := hb i hi hge
        exact ⟨e, List.mem_append_left _ he, heq⟩
    · intro d₁ h₁ d₂ h₂ hge heq
      rcases List.mem_append.mp h₁ with h₁ | h₁ <;>
        rcases List.mem_append.mp h₂ with h₂ | h₂
      · exact hc d₁ h₁ d₂ h₂ hge heq
      · rw [List.mem_singleton.mp h₂] at heq
        exact absurd ⟨heq ▸ hge, heq ▸ ha d₁ h₁ hge⟩ hnot
      · rw [List.mem_singleton.mp h₁] at hge heq
        have h2ge : 0 ≤ d₂.ssaTempIndex := heq ▸ hge
        have hmem2 := ha d₂ h₂ h2ge
        rw [← heq] at hmem2
        exact absurd ⟨hge, hmem2⟩ hnot
      · rw [List.mem_singleton.mp h₁, List.mem_singleton.mp h₂]
    · rw [List.filter_append]
      by_cases hge : 0 ≤ d.ssaTempIndex
      · have hfd : [d].filter (fun e => decide (0 ≤ e.ssaTempIndex)) = [d] := by
          simp [hge]
        rw [hfd, List.nodup_append]
        refine ⟨hd, List.nodup_singleton d, ?_⟩
        intro e he he'
        rw [List.mem_singleton.mp he'] at he
        have : d ∈ w.defs := (List.mem_filter.mp he).1
        exact hnot ⟨hge, ha d this hge⟩
      · have hfd : [d].filter (fun e => decide (0 ≤ e.ssaTempIndex)) = [] := by
          simp [hge]
        rw [hfd, List.append_nil]
        exact hd

/-- RemoveLast preserves the worklist representation invariant. -/
theorem wl_removeLast_preserves (w : DefinitionWorklist) (d' : Definition)
    (w' : DefinitionWorklist) (h : WorklistInv w)
    (hr : w.RemoveLast = some (d', w')) : WorklistInv w' := by
  obtain ⟨ha, hb, hc, hd⟩ := h
  unfold DefinitionWorklist.RemoveLast at hr
  cases hlast : w.defs.getLast? with
  | none => rw [hlast] at hr; exact absurd hr (by simp)
  | some e =>
      rw [hlast] at hr
      simp only [Option.some.injEq, Prod.mk.injEq] at hr
      obtain ⟨hde, hw'⟩ := hr
      subst hde
      subst hw'
      have hsplit : w.defs.dropLast ++ [e] = w.defs :=
        List.dropLast_append_getLast? e hlast
      refine ⟨?_, ?_, ?_, ?_⟩
      · intro f hf hge
        have hmem : f ∈ w.defs := by
          rw [← hsplit]; exact List.mem_append_left _ hf
        refine Finset.mem_erase.mpr ⟨?_, ha f hmem hge⟩
        intro heq
        have hlm : e ∈ w.defs := by
          rw [← hsplit]
          exact List.mem_append_right _ (List.mem_singleton.mpr rfl)
        have hfe : f = e := hc f hmem e hlm hge heq
        have hge' : 0 ≤ e.ssaTempIndex := hfe ▸ hge
        have hnodup := hd
        rw [← hsplit, List.filter_append] at hnodup
        have hfd : List.filter (fun x => decide (0 ≤ x.ssaTempIndex)) [e] =
            [e] := by
          simp [hge']
        rw [hfd, List.nodup_append] at hnodup
        have hef : e ∈ w.defs.dropLast := by rw [← hfe]; exact hf
        exact hnodup.2.2 (List.mem_filter.mpr ⟨hef, by simpa using hge'⟩)
          (List.mem_singleton.mpr rfl)
      · intro i hi hge
        obtain ⟨hne, hmem⟩ := Finset.mem_erase.mp hi
        obtain ⟨f, hf, heq⟩ := hb i hmem hge
        rw [← hsplit] at hf
        rcases List.mem_append.mp hf with hf | hf
        · exact ⟨f, hf, heq⟩
        · rw [List.mem_singleton.mp hf] at heq
          exact absurd heq.symm hne
      · intro d₁ h₁ d₂ h₂ hge heq
        have m₁ : d₁ ∈ w.defs := by
          rw [← hsplit]; exact List.mem_append_left _ h₁
        have m₂ : d₂ ∈ w.defs := by
          rw [← hsplit]; exact List.mem_append_left _ h₂
        exact hc d₁ m₁ d₂ m₂ hge heq
      · have hsub : w.defs.dropLast.Sublist w.defs := by
          conv_rhs => rw [← hsplit]
          exact List.sublist_append_left _ _
        exact List.Nodup.sublist (List.Sublist.filter _ hsub) hd

/-- Contains decides membership in the definition list, given the
invariant and that no other queued definition shares the index. -/
theorem wl_contains_iff (w : DefinitionWorklist) (d : Definition)
    (h : WorklistInv w) (hge : 0 ≤ d.ssaTempIndex)
    (huniq : ∀ e ∈ w.defs, e.ssaTempIndex = d.ssaTempIndex → e = d) :
    (w.Contains d = true ↔ d ∈ w.defs) := by
  obtain ⟨ha, hb, _, _⟩ := h
  simp only [DefinitionWorklist.Contains, Bool.and_eq_true, decide_eq_true_eq]
  constructor
  · rintro ⟨-, hmem⟩
    obtain ⟨e, he, heq⟩ := hb _ hmem hge
    exact (huniq e he heq) ▸ he
  · intro hmem
    exact ⟨hge, ha d hmem hge⟩

/-- Adding an already-queued definition with non-negative index leaves
the worklist unchanged. -/
theorem wl_add_noop (w : DefinitionWorklist) (d : Definition)
    (h : WorklistInv w) (hmem : d ∈ w.defs) (hge : 0 ≤ d.ssaTempIndex) :
    w.Add d = w := by
  have hcont : w.Contains d = true := by
    simp [DefinitionWorklist.Contains, hge, h.1 d hmem hge]
  simp [DefinitionWorklist.Add, hcont]

/-- C9: DefinitionWorklist maintains, across Add, RemoveLast and Clear,
the invariant that every definition with non-negative ssa_temp_index is
reported by Contains exactly when it is on the definition list; Add is a
no-op on an already-queued definition, so no definition appears twice. -/
theorem definitionWorklist_invariant (w w' : DefinitionWorklist)
    (d d' : Definition) :
    WorklistInv DefinitionWorklist.empty ∧
      (WorklistInv w → WorklistInv (w.Add d)) ∧
      (WorklistInv w → w.RemoveLast = some (d', w') → WorklistInv w') ∧
      WorklistInv w.Clear ∧
      (WorklistInv w → 0 ≤ d.ssaTempIndex →
        (∀ e ∈ w.defs, e.ssaTempIndex = d.ssaTempIndex → e = d) →
        (w.Contains d = true ↔ d ∈ w.defs)) ∧
      (WorklistInv w → d ∈ w.defs → 0 ≤ d.ssaTempIndex → w.Add d = w) :=
  ⟨wl_empty_inv, wl_add_preserves w d, wl_removeLast_preserves w d' w',
    wl_clear_inv w, wl_contains_iff w d, wl_add_noop w d⟩

/-- Witness for C9 on a two-element worklist holding indices 0 and 1. -/
theorem definitionWorklist_invariant_witness :
    WorklistInv DefinitionWorklist.empty ∧
      WorklistInv (DefinitionWorklist.Add ⟨[⟨0, 0⟩, ⟨1, 1⟩], {0, 1}⟩ ⟨2, 5⟩) ∧
      WorklistInv ⟨[⟨0, 0⟩], ({0, 1} : Finset Int).erase 1⟩ ∧
      WorklistInv (DefinitionWorklist.Clear ⟨[⟨0, 0⟩, ⟨1, 1⟩], {0, 1}⟩) ∧
      (DefinitionWorklist.Contains ⟨[⟨0, 0⟩, ⟨1, 1⟩], {0, 1}⟩ ⟨1, 1⟩ = true ↔
        (⟨1, 1⟩ : Definition) ∈
          (⟨[⟨0, 0⟩, ⟨1, 1⟩], {0, 1}⟩ : DefinitionWorklist).defs) ∧
      DefinitionWorklist.Add ⟨[⟨0, 0⟩, ⟨1, 1⟩], {0, 1}⟩ ⟨1, 1⟩ =
        ⟨[⟨0, 0⟩, ⟨1, 1⟩], {0, 1}⟩ := by
  have T := definitionWorklist_invariant ⟨[⟨0, 0⟩, ⟨1, 1⟩], {0, 1}⟩
    ⟨[⟨0, 0⟩], ({0, 1} : Finset Int).erase 1⟩ ⟨2, 5⟩ ⟨1, 1⟩
  have T' := definitionWorklist_invariant ⟨[⟨0, 0⟩, ⟨1, 1⟩], {0, 1}⟩
    ⟨[⟨0, 0⟩], ({0, 1} : Finset Int).erase 1⟩ ⟨1, 1⟩ ⟨1, 1⟩
  have hinv : WorklistInv ⟨[⟨0, 0⟩, ⟨1, 1⟩], {0, 1}⟩ := by decide
  exact ⟨T.1, T.2.1 hinv, T.2.2.1 hinv (by decide), T.2.2.2.1,
    T'.2.2.2.2.1 hinv (by decide) (by decide),
    T'.2.2.2.2.2 hinv (by decide) (by decide)⟩

/-- Witness for C4: a graph that already holds the marker (1, 2, 3) at
point 1, and the double-call equation at an empty graph. -/
theorem ensureRedefinition_idempotent_witness :
    EnsureRedefinition ⟨[(1, 2, 3)], 9⟩ 1 2 3 = (none, ⟨[(1, 2, 3)], 9⟩) ∧
      EnsureRedefinition (EnsureRedefinition ⟨[], 0⟩ 1 2 3).2 1 2 3 =
        (none, (EnsureRedefinition ⟨[], 0⟩ 1 2 3).2) :=
  ⟨(ensureRedefinition_idempotent ⟨[(1, 2, 3)], 9⟩ 1 2 3).1 (by decide),
    (ensureRedefinition_idempotent ⟨[], 0⟩ 1 2 3).2⟩

/-- Projection: UpdateLiveOut leaves live_in untouched. -/
theorem updateLiveOut_live_in {nb nv : Nat} (L : LivenessAnalysis nb nv)
    (s : LiveSets nb nv) (b : Fin nb) :
    (UpdateLiveOut L s b).live_in = s.live_in := rfl

/-- Projection: the live_out component written by UpdateLiveOut. -/
theorem updateLiveOut_live_out {nb nv : Nat} (L : LivenessAnalysis nb nv)
    (s : LiveSets nb nv) (b : Fin nb) :
    (UpdateLiveOut L s b).live_out =
      Function.update s.live_out b (s.live_out b ∪ unionLiveIn L s b) := rfl

/-- Projection: UpdateLiveIn leaves live_out untouched. -/
theorem updateLiveIn_live_out {nb nv : Nat} (L : LivenessAnalysis nb nv)
    (s : LiveSets nb nv) (b : Fin nb) :
    (UpdateLiveIn L s b).live_out = s.live_out := rfl

/-- Projection: the live_in component written by UpdateLiveIn. -/
theorem updateLiveIn_live_in {nb nv : Nat} (L : LivenessAnalysis nb nv)
    (s : LiveSets nb nv) (b : Fin nb) :
    (UpdateLiveIn L s b).live_in =
      Function.update s.live_in b
        (s.live_in b ∪ ((s.live_out b \ L.kill b) ∪ L.gen b)) := rfl

/-- SetsLE is reflexive. -/
theorem setsLE_refl {nb nv : Nat} (s : LiveSets nb nv) : SetsLE s s :=
  fun _ => ⟨Finset.Subset.refl _, Finset.Subset.refl _⟩

/-- SetsLE is transitive. -/
theorem setsLE_trans {nb nv : Nat} {s t u : LiveSets nb nv}
    (h₁ : SetsLE s t) (h₂ : SetsLE t u) : SetsLE s u :=
  fun b => ⟨(h₁ b).1.trans (h₂ b).1, (h₁ b).2.trans (h₂ b).2⟩

/-- SetsLE is antisymmetric. -/
theorem setsLE_antisymm {nb nv : Nat} {s t : LiveSets nb nv}
    (h₁ : SetsLE s t) (h₂ : SetsLE t s) : s = t := by
  cases s with
  | mk ai ao =>
      cases t with
      | mk bi bo =>
          simp only [LiveSets.mk.injEq]
          constructor <;> funext b
          · exact Finset.Subset.antisymm (h₁ b).1 (h₂ b).1
          · exact Finset.Subset.antisymm (h₁ b).2 (h₂ b).2

/-- UpdateLiveOut only grows the state. -/
theorem setsLE_updateLiveOut {nb nv : Nat} (L : LivenessAnalysis nb nv)
    (s : LiveSets nb nv) (b : Fin nb) : SetsLE s (UpdateLiveOut L s b) := by
  intro b'
  rw [UpdateLiveOut]
  dsimp only
  refine ⟨Finset.Subset.refl _, ?_⟩
  by_cases h : b' = b
  · subst h
    rw [Function.update_same]
    exact Finset.subset_union_left
  · rw [Function.update_noteq h]

/-- UpdateLiveIn only grows the state. -/
theorem setsLE_updateLiveIn {nb nv : Nat} (L : LivenessAnalysis nb nv)
    (s : LiveSets nb nv) (b : Fin nb) : SetsLE s (UpdateLiveIn L s b) := by
  intro b'
  rw [UpdateLiveIn]
  dsimp only
  refine ⟨?_, Finset.Subset.refl _⟩
  by_cases h : b' = b
  · subst h
    rw [Function.update_same]
    exact Finset.subset_union_left
  · rw [Function.update_noteq h]

/-- A per-block step only grows the state. -/
theorem setsLE_updateBlock {nb nv : Nat} (L : LivenessAnalysis nb nv)
    (s : LiveSets nb nv) (b : Fin nb) : SetsLE s (updateBlock L s b) :=
  setsLE_trans (setsLE_updateLiveOut L s b)
    (setsLE_updateLiveIn L (UpdateLiveOut L s b) b)

/-- Folding per-block steps only grows the state. -/
theorem setsLE_foldl {nb nv : Nat} (L : LivenessAnalysis nb nv)
    (l : List (Fin nb)) (s : LiveSets nb nv) :
    SetsLE s (l.foldl (updateBlock L) s) := by
  induction l generalizing s with
  | nil => exact setsLE_refl s
  | cons x xs ih =>
      exact setsLE_trans (setsLE_updateBlock L s x) (ih (updateBlock L s x))

/-- A full pass only grows the state. -/
theorem setsLE_onePass {nb nv : Nat} (L : LivenessAnalysis nb nv)
    (s : LiveSets nb nv) : SetsLE s (onePass L s) :=
  setsLE_foldl L (List.finRange nb) s

/-- The total size of the live sets is bounded by twice block count
times variable count. -/
theorem totalSize_le {nb nv : Nat} (s : LiveSets nb nv) :
    totalSize s ≤ 2 * nb * nv := by
  unfold totalSize
  have h : ∀ b : Fin nb, (s.live_in b).card + (s.live_out b).card ≤ 2 * nv := by
    intro b
    have h1 : (s.live_in b).card ≤ nv :=
      (Finset.card_le_univ _).trans_eq (Fintype.card_fin nv)
    have h2 : (s.live_out b).card ≤ nv :=
      (Finset.card_le_univ _).trans_eq (Fintype.card_fin nv)
    omega
  calc ∑ b : Fin nb, ((s.live_in b).card + (s.live_out b).card)
      ≤ ∑ _b : Fin nb, 2 * nv := Finset.sum_le_sum (fun b _ => h b)
    _ = nb * (2 * nv) := by
        rw [Finset.sum_const, Finset.card_univ, Fintype.card_fin, smul_eq_mul]
    _ = 2 * nb * nv := by ring

/-- A strictly grown state has strictly larger total size. -/
theorem totalSize_lt_of_ne {nb nv : Nat} {s t : LiveSets nb nv}
    (hle : SetsLE s t) (hne : s ≠ t) : totalSize s < totalSize t := by
  have hex : ∃ b, s.live_in b ≠ t.live_in b ∨ s.live_out b ≠ t.live_out b := by
    by_contra hall
    push_neg at hall
    apply hne
    cases s with
    | mk ai ao =>
        cases t with
        | mk bi bo =>
            simp only [LiveSets.mk.injEq]
            constructor <;> funext b
            · exact (hall b).1
            · exact (hall b).2
  obtain ⟨b, hb⟩ := hex
  unfold totalSize
  apply Finset.sum_lt_sum
  · intro i _
    exact Nat.add_le_add (Finset.card_le_card (hle i).1)
      (Finset.card_le_card (hle i).2)
  · refine ⟨b, Finset.mem_univ b, ?_⟩
    rcases hb with hb | hb
    · have h1 : (s.live_in b).card < (t.live_in b).card :=
        Finset.card_lt_card (Finset.ssubset_iff_subset_ne.mpr ⟨(hle b).1, hb⟩)
      have h2 := Finset.card_le_card (hle b).2
      omega
    · have h1 : (s.live_out b).card < (t.live_out b).card :=
        Finset.card_lt_card (Finset.ssubset_iff_subset_ne.mpr ⟨(hle b).2, hb⟩)
      have h2 := Finset.card_le_card (hle b).1
      omega

/-- With enough fuel relative to the remaining headroom, the driver
reaches a state that a further full pass does not change. -/
theorem computeLiveSets_fixpoint_aux {nb nv : Nat}
    (L : LivenessAnalysis nb nv) :
    ∀ (fuel : Nat) (s : LiveSets nb nv), 2 * nb * nv < totalSize s + fuel →
      onePass L (ComputeLiveInAndLiveOutSets L fuel s) =
        ComputeLiveInAndLiveOutSets L fuel s := by
  intro fuel
  induction fuel with
  | zero =>
      intro s hs
      exact absurd hs (by have := totalSize_le s; omega)
  | succ fuel ih =>
      intro s hs
      have hstep : ComputeLiveInAndLiveOutSets L (fuel + 1) s =
          (if onePass L s = s then s
            else ComputeLiveInAndLiveOutSets L fuel (onePass L s)) := rfl
      rw [hstep]
      by_cases h : onePass L s = s
      · rw [if_pos h]
        exact h
      · rw [if_neg h]
        have hlt : totalSize s < totalSize (onePass L s) :=
          totalSize_lt_of_ne (setsLE_onePass L s) (fun heq => h heq.symm)
        exact ih (onePass L s) (by omega)

/-- C8: the liveness fixed-point driver terminates on every finite block
graph and variable universe: a full pass never shrinks any live set,
the total size of the sets is bounded by 2·(block count)·(variable
count), and within that many passes the driver stops at a state that a
further full pass leaves unchanged. -/
theorem liveness_terminates {nb nv : Nat} (L : LivenessAnalysis nb nv) :
    (∀ s : LiveSets nb nv, SetsLE s (onePass L s)) ∧
      (∀ s : LiveSets nb nv, totalSize s ≤ 2 * nb * nv) ∧
      onePass L (Analyze L) = Analyze L := by
  refine ⟨fun s => setsLE_onePass L s, fun s => totalSize_le s, ?_⟩
  unfold Analyze
  exact computeLiveSets_fixpoint_aux L (2 * nb * nv + 1) (emptySets nb nv)
    (by omega)

/-- Membership in an accumulating union fold over a list. -/
theorem mem_foldl_union {nb nv : Nat} (f : Fin nb → Finset (Fin nv))
    (l : List (Fin nb)) (A : Finset (Fin nv)) (x : Fin nv) :
    x ∈ l.foldl (fun acc j => acc ∪ f j) A ↔ x ∈ A ∨ ∃ j ∈ l, x ∈ f j := by
  induction l generalizing A with
  | nil => simp
  | cons y ys ih =>
      simp only [List.foldl_cons, ih, Finset.mem_union, List.mem_cons]
      constructor
      · rintro ((h | h) | ⟨j, hj, hx⟩)
        · exact Or.inl h
        · exact Or.inr ⟨y, Or.inl rfl, h⟩
        · exact Or.inr ⟨j, Or.inr hj, hx⟩
      · rintro (h | ⟨j, (rfl | hj), hx⟩)
        · exact Or.inl (Or.inl h)
        · exact Or.inl (Or.inr hx)
        · exact Or.inr ⟨j, hj, hx⟩

/-- Membership characterization of unionLiveIn. -/
theorem mem_unionLiveIn {nb nv : Nat} (L : LivenessAnalysis nb nv)
    (s : LiveSets nb nv) (b : Fin nb) (x : Fin nv) :
    x ∈ unionLiveIn L s b ↔ ∃ j ∈ L.succ b, x ∈ s.live_in j := by
  unfold unionLiveIn
  rw [mem_foldl_union]
  simp

/-- unionLiveIn is monotone in the live-in sets. -/
theorem unionLiveIn_mono {nb nv : Nat} (L : LivenessAnalysis nb nv)
    {s t : LiveSets nb nv} (h : ∀ j, s.live_in j ⊆ t.live_in j) (b : Fin nb) :
    unionLiveIn L s b ⊆ unionLiveIn L t b := by
  intro x hx
  rw [mem_unionLiveIn] at hx ⊢
  obtain ⟨j, hj, hx⟩ := hx
  exact ⟨j, hj, h j hx⟩

/-- unionLiveIn only depends on the live-in component. -/
theorem unionLiveIn_congr {nb nv : Nat} (L : LivenessAnalysis nb nv)
    {s t : LiveSets nb nv} (h : s.live_in = t.live_in) (b : Fin nb) :
    unionLiveIn L s b = unionLiveIn L t b := by
  unfold unionLiveIn
  rw [h]

/-- UpdateLiveOut preserves the dataflow invariant. -/
theorem liveInv_updateLiveOut {nb nv : Nat} (L : LivenessAnalysis nb nv)
    {s : LiveSets nb nv} (b : Fin nb) (h : LiveInv L s) :
    LiveInv L (UpdateLiveOut L s b) := by
  intro b'
  have huni : ∀ c, unionLiveIn L (UpdateLiveOut L s b) c = unionLiveIn L s c :=
    fun c => unionLiveIn_congr L (updateLiveOut_live_in L s b) c
  constructor
  · rw [huni, updateLiveOut_live_out]
    by_cases hb : b' = b
    · subst hb
      rw [Function.update_same]
      exact Finset.union_subset (h b').1 (Finset.Subset.refl _)
    · rw [Function.update_noteq hb]
      exact (h b').1
  · rw [updateLiveOut_live_in, updateLiveOut_live_out]
    have hgrow : s.live_out b' ⊆
        Function.update s.live_out b (s.live_out b ∪ unionLiveIn L s b) b' := by
      by_cases hb : b' = b
      · subst hb
        rw [Function.update_same]
        exact Finset.subset_union_left
      · rw [Function.update_noteq hb]
    refine (h b').2.trans ?_
    exact Finset.union_subset_union
      (Finset.sdiff_subset_sdiff hgrow (Finset.Subset.refl _))
      (Finset.Subset.refl _)

/-- UpdateLiveIn preserves the dataflow invariant. -/
theorem liveInv_updateLiveIn {nb nv : Nat} (L : LivenessAnalysis nb nv)
    {s : LiveSets nb nv} (b : Fin nb) (h : LiveInv L s) :
    LiveInv L (UpdateLiveIn L s b) := by
  intro b'
  constructor
  · rw [updateLiveIn_live_out]
    refine (h b').1.trans (unionLiveIn_mono L ?_ b')
    intro j
    rw [updateLiveIn_live_in]
    by_cases hj : j = b
    · subst hj
      rw [Function.update_same]
      exact Finset.subset_union_left
    · rw [Function.update_noteq hj]
  · rw [updateLiveIn_live_in, updateLiveIn_live_out]
    by_cases hb : b' = b
    · subst hb
      rw [Function.update_same]
      exact Finset.union_subset (h b').2 (Finset.Subset.refl _)
    · rw [Function.update_noteq hb]
      exact (h b').2

/-- A per-block step preserves the dataflow invariant. -/
theorem liveInv_updateBlock {nb nv : Nat} (L : LivenessAnalysis nb nv)
    {s : LiveSets nb nv} (b : Fin nb) (h : LiveInv L s) :
    LiveInv L (updateBlock L s b) :=
  liveInv_updateLiveIn L b (liveInv_updateLiveOut L b h)

/-- A fold of per-block steps preserves the dataflow invariant. -/
theorem liveInv_foldl {nb nv : Nat} (L : LivenessAnalysis nb nv)
    (l : List (Fin nb)) {s : LiveSets nb nv} (h : LiveInv L s) :
    LiveInv L (l.foldl (updateBlock L) s) := by
  induction l generalizing s with
  | nil => exact h
  | cons x xs ih => exact ih (liveInv_updateBlock L x h)

/-- The fixed-point driver preserves the dataflow invariant. -/
theorem liveInv_compute {nb nv : Nat} (L : LivenessAnalysis nb nv)
    (fuel : Nat) {s : LiveSets nb nv} (h : LiveInv L s) :
    LiveInv L (ComputeLiveInAndLiveOutSets L fuel s) := by
  induction fuel generalizing s with
  | zero => exact h
  | succ fuel ih =>
      have hstep : ComputeLiveInAndLiveOutSets L (fuel + 1) s =
          (if onePass L s = s then s
            else ComputeLiveInAndLiveOutSets L fuel (onePass L s)) := rfl
      rw [hstep]
      by_cases hfix : onePass L s = s
      · rw [if_pos hfix]
        exact h
      · rw [if_neg hfix]
        exact ih (liveInv_foldl L (List.finRange nb) h)

/-- The empty state satisfies the dataflow invariant. -/
theorem liveInv_empty {nb nv : Nat} (L : LivenessAnalysis nb nv) :
    LiveInv L (emptySets nb nv) :=
  fun _ => ⟨Finset.empty_subset _, Finset.empty_subset _⟩

/-- If a fold of growing steps returns its start state, every listed
step fixes that state. -/
theorem foldl_fixed_each {nb nv : Nat} (L : LivenessAnalysis nb nv) :
    ∀ (l : List (Fin nb)) (s : LiveSets nb nv),
      l.foldl (updateBlock L) s = s → ∀ x ∈ l, updateBlock L s x = s := by
  intro l
  induction l with
  | nil =>
      intro s _ x hx
      exact absurd hx (List.not_mem_nil x)
  | cons y ys ih =>
      intro s hfold x hx
      rw [List.foldl_cons] at hfold
      have h1 : SetsLE s (updateBlock L s y) := setsLE_updateBlock L s y
      have h2 : SetsLE (updateBlock L s y)
          (ys.foldl (updateBlock L) (updateBlock L s y)) :=
        setsLE_foldl L ys (updateBlock L s y)
      rw [hfold] at h2
      have heq : updateBlock L s y = s := setsLE_antisymm h2 h1
      rcases List.mem_cons.mp hx with rfl | hx'
      · exact heq
      · rw [heq] at hfold
        exact ih s hfold x hx'

/-- At a state fixed by a full pass, each per-block step is the
identity. -/
theorem updateBlock_fixed {nb nv : Nat} (L : LivenessAnalysis nb nv)
    {s : LiveSets nb nv} (hfix : onePass L s = s) (b : Fin nb) :
    updateBlock L s b = s :=
  foldl_fixed_each L (List.finRange nb) s hfix b (List.mem_finRange b)

/-- A per-block step that fixes the state splits into both updates
fixing it. -/
theorem updates_fixed {nb nv : Nat} (L : LivenessAnalysis nb nv)
    {s : LiveSets nb nv} {b : Fin nb} (h : updateBlock L s b = s) :
    UpdateLiveOut L s b = s ∧ UpdateLiveIn L s b = s := by
  have h1 : SetsLE s (UpdateLiveOut L s b) := setsLE_updateLiveOut L s b
  have h2 : SetsLE (UpdateLiveOut L s b)
      (UpdateLiveIn L (UpdateLiveOut L s b) b) :=
    setsLE_updateLiveIn L (UpdateLiveOut L s b) b
  have hcomp : UpdateLiveIn L (UpdateLiveOut L s b) b = updateBlock L s b := rfl
  rw [hcomp, h] at h2
  have hout : UpdateLiveOut L s b = s := setsLE_antisymm h2 h1
  refine ⟨hout, ?_⟩
  have : updateBlock L s b = UpdateLiveIn L (UpdateLiveOut L s b) b := rfl
  rw [this, hout] at h
  exact h

/-- At an invariant state fixed by UpdateLiveOut, live-out equals the
successor live-in union exactly. -/
theorem liveOut_eq_of_fixed {nb nv : Nat} (L : LivenessAnalysis nb nv)
    {s : LiveSets nb nv} {b : Fin nb} (hinv : LiveInv L s)
    (hout : UpdateLiveOut L s b = s) :
    s.live_out b = unionLiveIn L s b := by
  have hcomp := congrArg LiveSets.live_out hout
  rw [updateLiveOut_live_out] at hcomp
  have hb := congrFun hcomp b
  rw [Function.update_same] at hb
  apply Finset.Subset.antisymm (hinv b).1
  intro x hx
  rw [← hb]
  exact Finset.mem_union_right _ hx

/-- At an invariant state fixed by UpdateLiveIn, live-in equals
(live-out minus kill) union gen exactly. -/
theorem liveIn_eq_of_fixed {nb nv : Nat} (L : LivenessAnalysis nb nv)
    {s : LiveSets nb nv} {b : Fin nb} (hinv : LiveInv L s)
    (hin : UpdateLiveIn L s b = s) :
    s.live_in b = (s.live_out b \ L.kill b) ∪ L.gen b := by
  have hcomp := congrArg LiveSets.live_in hin
  rw [updateLiveIn_live_in] at hcomp
  have hb := congrFun hcomp b
  rw [Function.update_same] at hb
  apply Finset.Subset.antisymm (hinv b).2
  intro x hx
  rw [← hb]
  exact Finset.mem_union_right _ hx

/-- C2: at the fixed point reached by the liveness driver, every block
satisfies live_in = (live_out minus kill) union gen and live_out =
union of successors' live_in; re-applying UpdateLiveOut or UpdateLiveIn
to any block changes no set. -/
theorem liveness_fixed_point {nb nv : Nat} (L : LivenessAnalysis nb nv)
    (b : Fin nb) :
    (Analyze L).live_out b = unionLiveIn L (Analyze L) b ∧
      (Analyze L).live_in b =
        ((Analyze L).live_out b \ L.kill b) ∪ L.gen b ∧
      UpdateLiveOut L (Analyze L) b = Analyze L ∧
      UpdateLiveIn L (Analyze L) b = Analyze L := by
  have hfix : onePass L (Analyze L) = Analyze L := by
    unfold Analyze
    exact computeLiveSets_fixpoint_aux L (2 * nb * nv + 1) (emptySets nb nv)
      (by omega)
  have hinv : LiveInv L (Analyze L) := by
    unfold Analyze
    exact liveInv_compute L (2 * nb * nv + 1) (liveInv_empty L)
  obtain ⟨hout, hin⟩ := updates_fixed L (updateBlock_fixed L hfix b)
  exact ⟨liveOut_eq_of_fixed L hinv hout, liveIn_eq_of_fixed L hinv hin,
    hout, hin⟩

/-- The source of an avoiding path is not the avoided block. -/
theorem reachesAvoiding_src_ne {nb : Nat} {g : BlockGraph nb}
    {n b d : Fin nb} (h : ReachesAvoiding g n b d) : b ≠ n := by
  cases h with
  | refl b hb => exact hb
  | step b c d hb _ _ => exact hb

/-- The target of an avoiding path is not the avoided block. -/
theorem reachesAvoiding_tgt_ne {nb : Nat} {g : BlockGraph nb}
    {n b d : Fin nb} (h : ReachesAvoiding g n b d) : d ≠ n := by
  induction h with
  | refl b hb => exact hb
  | step b c d hb hbc hcd ih => exact ih

/-- Membership in the deduplicated list of unvisited predecessors. -/
theorem mem_newPreds {nb : Nat} (g : BlockGraph nb) (p : Fin nb)
    (S : Finset (Fin nb)) (q : Fin nb) :
    q ∈ ((g.pred p).filter (fun x => decide (x ∉ S))).dedup ↔
      q ∈ g.pred p ∧ q ∉ S := by
  rw [List.mem_dedup, List.mem_filter]
  simp

/-- One pop-and-expand step of loopWork preserves the worklist
invariant. -/
theorem loopInv_step {nb : Nat} (g : BlockGraph nb) (m n p : Fin nb)
    (stack : List (Fin nb)) (S : Finset (Fin nb))
    (h : LoopInv g m n (p :: stack) S) :
    LoopInv g m n
      (((g.pred p).filter (fun q => decide (q ∉ S))).dedup ++ stack)
      (S ∪ (((g.pred p).filter (fun q => decide (q ∉ S))).dedup).toFinset) := by
  obtain ⟨hn, hm, hstackS, hstackR, hsound, hclosed⟩ := h
  refine ⟨Finset.mem_union_left _ hn, Finset.mem_union_left _ hm,
    ?_, ?_, ?_, ?_⟩
  · intro x hx
    rcases List.mem_append.mp hx with hx | hx
    · exact Finset.mem_union_right _ (List.mem_toFinset.mpr hx)
    · exact Finset.mem_union_left _ (hstackS x (List.mem_cons_of_mem p hx))
  · intro x hx
    rcases List.mem_append.mp hx with hx | hx
    · obtain ⟨hpred, hnotS⟩ := (mem_newPreds g p S x).mp hx
      have hxn : x ≠ n := fun heq => hnotS (heq ▸ hn)
      exact ReachesAvoiding.step x p m hxn hpred
        (hstackR p (List.mem_cons_self p stack))
    · exact hstackR x (List.mem_cons_of_mem p hx)
  · intro b hb
    rcases Finset.mem_union.mp hb with hb | hb
    · exact hsound b hb
    · obtain ⟨hpred, hnotS⟩ := (mem_newPreds g p S b).mp (List.mem_toFinset.mp hb)
      have hbn : b ≠ n := fun heq => hnotS (heq ▸ hn)
      exact Or.inr (ReachesAvoiding.step b p m hbn hpred
        (hstackR p (List.mem_cons_self p stack)))
  · intro x hx
    rcases Finset.mem_union.mp hx with hx | hx
    · rcases hclosed x hx with hxn | hxstack | hxpred
      · exact Or.inl hxn
      · rcases List.mem_cons.mp hxstack with rfl | hxs
        · refine Or.inr (Or.inr ?_)
          intro q hq
          by_cases hqS : q ∈ S
          · exact Finset.mem_union_left _ hqS
          · exact Finset.mem_union_right _
              (List.mem_toFinset.mpr ((mem_newPreds g x S q).mpr ⟨hq, hqS⟩))
        · exact Or.inr (Or.inl (List.mem_append_right _ hxs))
      · exact Or.inr (Or.inr (fun q hq => Finset.mem_union_left _ (hxpred q hq)))
    · exact Or.inr (Or.inl (List.mem_append_left _ (List.mem_toFinset.mp hx)))

/-- loopWork carries the worklist invariant to an empty-stack final
state. -/
theorem loopWork_final {nb : Nat} (g : BlockGraph nb) (m n : Fin nb) :
    ∀ (stack : List (Fin nb)) (S : Finset (Fin nb)), LoopInv g m n stack S →
      LoopInv g m n [] (loopWork g stack S) := by
  intro stack S
  induction stack, S using loopWork.induct g with
  | case1 S =>
      intro h
      rw [loopWork]
      exact h
  | case2 p stack S ih =>
      intro h
      rw [loopWork]
      exact ih (loopInv_step g m n p stack S h)

/-- In a set closed under predecessors away from n, every block with an
avoiding path into the set is itself in the set. -/
theorem reach_mem_of_closed {nb : Nat} (g : BlockGraph nb) (n : Fin nb)
    (F : Finset (Fin nb))
    (hclosed : ∀ p ∈ F, p = n ∨ ∀ q ∈ g.pred p, q ∈ F) :
    ∀ b d : Fin nb, ReachesAvoiding g n b d → d ∈ F → b ∈ F := by
  intro b d h
  induction h with
  | refl b hb => exact fun hd => hd
  | step b c d hb hbc hcd ih =>
      intro hd
      have hc : c ∈ F := ih hd
      rcases hclosed c hc with hcn | hpred
      · exact absurd hcn (reachesAvoiding_src_ne hcd)
      · exact hpred b hbc

/-- Membership characterization of the loopWork result from any
invariant state. -/
theorem loopWork_mem {nb : Nat} (g : BlockGraph nb) (m n : Fin nb)
    (stack : List (Fin nb)) (S : Finset (Fin nb))
    (h : LoopInv g m n stack S) (b : Fin nb) :
    b ∈ loopWork g stack S ↔ b = n ∨ ReachesAvoiding g n b m := by
  obtain ⟨hn, hm, -, -, hsound, hclosed⟩ := loopWork_final g m n stack S h
  have hclosed' : ∀ p ∈ loopWork g stack S, p = n ∨
      ∀ q ∈ g.pred p, q ∈ loopWork g stack S := by
    intro p hp
    rcases hclosed p hp with hpn | hps | hpred
    · exact Or.inl hpn
    · exact absurd hps (List.not_mem_nil p)
    · exact Or.inr hpred
  constructor
  · exact hsound b
  · rintro (rfl | hreach)
    · exact hn
    · exact reach_mem_of_closed g n (loopWork g stack S) hclosed' b m hreach hm

/-- C3: for a back edge m → n, FindLoopBlocks returns the set holding
exactly n together with the blocks from which m is reachable along CFG
paths every node of which avoids n; the set always contains both m and
n. -/
theorem findLoopBlocks_spec {nb : Nat} (g : BlockGraph nb) (m n b : Fin nb) :
    (b ∈ FindLoopBlocks g m n ↔ b = n ∨ ReachesAvoiding g n b m) ∧
      m ∈ FindLoopBlocks g m n ∧ n ∈ FindLoopBlocks g m n := by
  unfold FindLoopBlocks
  by_cases hmn : m = n
  · subst hmn
    rw [if_pos rfl]
    refine ⟨?_, Finset.mem_singleton_self m, Finset.mem_singleton_self m⟩
    rw [Finset.mem_singleton]
    constructor
    · exact Or.inl
    · rintro (rfl | hreach)
      · rfl
      · exact absurd rfl (reachesAvoiding_tgt_ne hreach)
  · rw [if_neg hmn]
    have hminS : m ∈ insert n ({m} : Finset (Fin nb)) :=
      Finset.mem_insert_of_mem (Finset.mem_singleton_self m)
    have hinv : LoopInv g m n [m] (insert n {m}) := by
      refine ⟨Finset.mem_insert_self n {m}, hminS, ?_, ?_, ?_, ?_⟩
      · intro p hp
        rw [List.mem_singleton.mp hp]
        exact hminS
      · intro p hp
        rw [List.mem_singleton.mp hp]
        exact ReachesAvoiding.refl m hmn
      · intro x hx
        rcases Finset.mem_insert.mp hx with rfl | hx
        · exact Or.inl rfl
        · rw [Finset.mem_singleton.mp hx]
          exact Or.inr (ReachesAvoiding.refl m hmn)
      · intro p hp
        rcases Finset.mem_insert.mp hp with rfl | hp
        · exact Or.inl rfl
        · refine Or.inr (Or.inl ?_)
          rw [Finset.mem_singleton.mp hp]
          exact List.mem_singleton.mpr rfl
    refine ⟨loopWork_mem g m n [m] (insert n {m}) hinv b, ?_, ?_⟩
    · exact (loopWork_mem g m n [m] (insert n {m}) hinv m).mpr
        (Or.inr (ReachesAvoiding.refl m hmn))
    · exact (loopWork_mem g m n [m] (insert n {m}) hinv n).mpr (Or.inl rfl)

end Dart
